import Mathlib

/-!
Shallow embedding of the command-palette core of the `codeforge_ide`
repository: the command registry (`src/components/commands/CommandRegistry.ts`)
and the keyboard-shortcut manager
(`src/components/commands/KeyboardManager.ts`).

Strings are modelled as lists of Unicode code points (`List Nat`); all string
data occurring in the program is ASCII, for which the JavaScript operations
`toLowerCase`, `trim`, `startsWith`, `includes` and code-unit comparison
coincide with the code-point-level functions defined below.  JavaScript `Map`
is modelled as an insertion-ordered association list (`Map.set` on a fresh key
appends; iteration order is insertion order).  `Array.prototype.sort`, which
is required to be a stable sort agreeing with the comparator, is modelled by
`List.insertionSort` over the relation "comparator result ≤ 0".  The rational
fuzzy score `score / text.length` is modelled exactly in `ℚ` (JavaScript
division by zero yields `NaN`, which fails the `> 0.5` test, matching `ℚ`
where `x / 0 = 0`).
-/

/-- Code-point string, the model of a JavaScript string. -/
abbrev Str := List Nat

/-- Convert a Lean string literal to its code-point list. -/
def chars (s : String) : Str := s.data.map Char.toNat

/-- ASCII lowercasing of one code point, the model of what
`String.prototype.toLowerCase` does on ASCII data. -/
def lowerChar (c : Nat) : Nat := if 65 ≤ c ∧ c ≤ 90 then c + 32 else c

/-- Model of `String.prototype.toLowerCase` (ASCII data). -/
def lowerStr (s : Str) : Str := s.map lowerChar

/-- ASCII whitespace recognised by `String.prototype.trim`. -/
def isWS (c : Nat) : Bool := c == 32 || c == 9 || c == 10 || c == 11 || c == 12 || c == 13

/-- Model of `String.prototype.trim` on ASCII data: strip leading and
trailing whitespace. -/
def trimStr (s : Str) : Str :=
  ((s.dropWhile isWS).reverse.dropWhile isWS).reverse

/-- Model of `haystack.includes(needle)`: substring containment. -/
def strIncludes (needle : Str) : Str → Bool
  | [] => needle.isEmpty
  | c :: t => needle.isPrefixOf (c :: t) || strIncludes needle t

/-- Model of `haystack.startsWith(prefixStr)`. -/
def strStartsWith (p s : Str) : Bool := p.isPrefixOf s

/-- The `CommandExecutionContext.source` union type from
`components/commands/types`. -/
inductive ExecSource where
  | palette | keyboard | menu | contextMenu | programmatic
deriving DecidableEq, Repr

/-- The `KeyboardShortcut` interface: primary key plus optional modifier
list (each modifier is one of the strings "ctrl", "shift", "alt", "meta").
`displayText` is carried for completeness but unused by the modelled
operations. -/
structure KeyboardShortcut where
  key : Str
  modifiers : Option (List Str)
  displayText : Option Str
deriving DecidableEq, Repr

/-- The `Command` interface, restricted to the fields the registry reads.
The two callbacks of `CommandAction` are opaque capabilities; they are
modelled by their observable outcome in one call: `canExecuteResult` is the
value returned by the optional `canExecute` predicate (`none` when the
predicate is absent), and `execOk` records whether `execute` resolves
(`false` means it throws/rejects). -/
structure Command where
  id : Str
  title : Str
  description : Option Str
  category : Str
  keywords : Option (List Str)
  keybinding : Option KeyboardShortcut
  priority : Option Int
  hidden : Bool
  canExecuteResult : Option Bool
  execOk : Bool
deriving DecidableEq, Repr

/-- `command.priority || 0`. -/
def prio (c : Command) : Int := c.priority.getD 0

/-- `command.keywords?.join(' ') || ''`. -/
def joinSpace (ks : List Str) : Str := List.intercalate [32] ks

/-- A `CommandExecutionContext` history record. The `args` payload is opaque
to the registry; it is modelled by an optional number. -/
structure ExecRecord where
  commandId : Str
  timestamp : Nat
  source : ExecSource
  args : Option Nat
deriving DecidableEq, Repr

/-- `CommandHistoryImpl.maxEntries`. -/
def maxEntries : Nat := 100

/-- `CommandHistoryImpl.add`: unshift the record, then truncate to
`maxEntries` when the cap is exceeded. -/
def historyAdd (h : List ExecRecord) (r : ExecRecord) : List ExecRecord :=
  let h' := r :: h
  if h'.length > maxEntries then h'.take maxEntries else h'

/-- `CommandHistoryImpl.getRecent`. -/
def getRecent (h : List ExecRecord) (count : Nat) : List ExecRecord :=
  h.take count

/-- Adding a whole chronological sequence of records, oldest first. -/
def historyAddAll (h : List ExecRecord) (rs : List ExecRecord) : List ExecRecord :=
  rs.foldl historyAdd h

/-- The catalog of registered commands: a JavaScript `Map` keyed by
`command.id`, modelled as an insertion-ordered list whose ids are unique by
construction of `register`. -/
abbrev Catalog := List Command

/-- `commands.has(id)`. -/
def hasCommand (st : Catalog) (id : Str) : Bool := st.any (fun c => c.id == id)

/-- `commands.get(id)`: first (and by the registration invariant only)
command with the given id. -/
def findCommand (st : Catalog) (id : Str) : Option Command :=
  st.find? (fun c => c.id == id)

/-- `CommandRegistryImpl.register`: a duplicate id is a warned no-op,
otherwise the command is inserted (a fresh `Map.set` appends in insertion
order). -/
def register (st : Catalog) (c : Command) : Catalog :=
  if hasCommand st c.id then st else st ++ [c]

/-- `CommandRegistryImpl.unregister`. -/
def unregister (st : Catalog) (id : Str) : Catalog :=
  st.filter (fun c => !(c.id == id))

/-- The ordering relation induced by the comparator
`(b.priority || 0) - (a.priority || 0)` used by `getAll`. -/
def prioRel (a b : Command) : Prop := prio b - prio a ≤ 0

instance : DecidableRel prioRel := fun a b => by unfold prioRel; infer_instance

instance : IsTotal Command prioRel :=
  ⟨fun a b => by unfold prioRel; omega⟩

instance : IsTrans Command prioRel :=
  ⟨fun a b c => by unfold prioRel; omega⟩

/-- `CommandRegistryImpl.getAll`: non-hidden commands sorted by descending
priority, via the stable `Array.prototype.sort` with comparator
`(b.priority || 0) - (a.priority || 0)`. -/
def getAll (st : Catalog) : List Command :=
  List.insertionSort prioRel (st.filter (fun c => !c.hidden))

/-- The title/description/keywords/category portion of the score computed by
the loop body of `CommandRegistryImpl.search` (everything before the fuzzy
fallback). -/
def baseScore (q : Str) (c : Command) : Nat :=
  let title := lowerStr c.title
  let descr := lowerStr (c.description.getD [])
  let keyw := lowerStr (joinSpace (c.keywords.getD []))
  (if title = q then 100
   else if strStartsWith q title then 80
   else if strIncludes q title then 60 else 0)
  + (if strIncludes q descr then 40 else 0)
  + (if strIncludes q keyw then 30 else 0)
  + (if strIncludes q (lowerStr c.category) then 20 else 0)

/-- The loop of `CommandRegistryImpl.calculateFuzzyScore`: walk `text`
left to right, carrying the `score` and `queryIndex` counters exactly as in
the source (the loop exits as soon as `queryIndex` reaches the query
length). -/
def fuzzyGo (query : Str) : Str → Nat → Nat → Nat × Nat
  | [], score, qi => (score, qi)
  | c :: t, score, qi =>
    if qi < query.length then
      if query.getD qi 0 = c then fuzzyGo query t (score + 1) (qi + 1)
      else fuzzyGo query t score qi
    else (score, qi)

/-- `CommandRegistryImpl.calculateFuzzyScore`: `score / text.length` when
every query character was matched, else `0`.  (For empty `text` JavaScript
returns `NaN`, which fails the subsequent `> 0.5` test just as `0` does
here, `ℚ` division by zero being `0`.) -/
def calculateFuzzyScore (query text : Str) : ℚ :=
  let r := fuzzyGo query text 0 0
  if r.2 = query.length then (r.1 : ℚ) / (text.length : ℚ) else 0

/-- The full score a command receives in the loop of
`CommandRegistryImpl.search`: the base score, or the fuzzy fallback
`Math.floor(fuzzyScore * 20)` when the base score is `0` and the fuzzy score
exceeds `0.5`. -/
def scoreCommand (q : Str) (c : Command) : Nat :=
  let base := baseScore q c
  if base = 0 then
    let f := calculateFuzzyScore q (lowerStr c.title)
    if 1 / 2 < f then (Int.floor (f * 20)).toNat else 0
  else base

/-- One entry of the `results` array built by `search`. -/
structure Scored where
  command : Command
  score : Nat
deriving DecidableEq, Repr

/-- Lexicographic comparison of code-point strings. -/
def lexCmp : Str → Str → Ordering
  | [], [] => .eq
  | [], _ :: _ => .lt
  | _ :: _, [] => .gt
  | a :: as, b :: bs =>
    if a < b then .lt else if b < a then .gt else lexCmp as bs

/-- Model of `a.localeCompare(b)` for the ASCII titles occurring in this
program: in the default locale letters compare alphabetically with case
ignored at the primary strength.  Titles equal up to case compare as `0`
here (the claims never depend on the tertiary case distinction). -/
def localeCompare (a b : Str) : Int :=
  match lexCmp (lowerStr a) (lowerStr b) with
  | .lt => -1
  | .eq => 0
  | .gt => 1

/-- The comparator passed to `results.sort` in `CommandRegistryImpl.search`:
descending score, then descending priority, then `localeCompare` on
titles. -/
def searchCmp (a b : Scored) : Int :=
  if a.score ≠ b.score then (b.score : Int) - (a.score : Int)
  else if prio a.command ≠ prio b.command then prio b.command - prio a.command
  else localeCompare a.command.title b.command.title

/-- The ordering relation induced by `searchCmp`, with respect to which the
stable `Array.prototype.sort` sorts the results. -/
def searchRel (a b : Scored) : Prop := searchCmp a b ≤ 0

instance : DecidableRel searchRel := fun a b => by unfold searchRel; infer_instance

/-- The scoring loop of `CommandRegistryImpl.search` over the insertion-
ordered command map: skip hidden commands, score the rest, keep positive
scores. -/
def searchScan (q : Str) : Catalog → List Scored
  | [] => []
  | c :: rest =>
    if c.hidden then searchScan q rest
    else
      let s := scoreCommand q c
      if 0 < s then ⟨c, s⟩ :: searchScan q rest else searchScan q rest

/-- `CommandRegistryImpl.search`. -/
def search (st : Catalog) (query : Str) : List Command :=
  if (trimStr query).isEmpty then getAll st
  else
    let nq := trimStr (lowerStr query)
    (List.insertionSort searchRel (searchScan nq st)).map Scored.command

/-- The mutable state of `CommandRegistryImpl` relevant to execution. -/
structure RegState where
  commands : Catalog
  history : List ExecRecord
deriving DecidableEq, Repr

/-- Observable outcome of one `executeCommand` call: the state afterwards,
whether an exception propagates to the caller, and whether the execution
listeners were notified. -/
structure ExecOutcome where
  state : RegState
  threw : Bool
  notified : Bool
deriving DecidableEq, Repr

/-- `CommandRegistryImpl.executeCommand`: unknown id and guard rejection are
logged no-ops; a successful `execute` appends the `CommandExecutionContext`
to history and notifies the listeners; a throwing `execute` is logged and
rethrown with no state change. -/
def executeCommand (st : RegState) (commandId : Str) (args : Option Nat)
    (source : ExecSource) (now : Nat) : ExecOutcome :=
  match findCommand st.commands commandId with
  | none => ⟨st, false, false⟩
  | some c =>
    if c.canExecuteResult = some false then ⟨st, false, false⟩
    else if c.execOk then
      ⟨⟨st.commands, historyAdd st.history ⟨commandId, now, source, args⟩⟩, false, true⟩
    else ⟨st, true, false⟩

/-- A `KeyBinding` entry of `KeyboardManagerImpl.keyBindings`.  The optional
`when` guard callback is modelled by its return value (`none` when
absent). -/
structure KeyBinding where
  shortcut : KeyboardShortcut
  commandId : Str
  whenResult : Option Bool
deriving DecidableEq, Repr

/-- The `keyBindings` map: insertion-ordered association list keyed by the
canonical shortcut key string. -/
abbrev ShortcutTable := List (Str × KeyBinding)

/-- JavaScript default `Array.prototype.sort` on an array of strings:
lexicographic comparison. -/
def sortMods (ms : List Str) : List Str :=
  List.insertionSort (fun a b => lexCmp a b ≠ Ordering.gt) ms

/-- `KeyboardManagerImpl.generateShortcutKey`: sorted modifiers joined with
`'+'`, then `'+'` and the lowercased key (code point 43 is `'+'`). -/
def generateShortcutKey (sc : KeyboardShortcut) : Str :=
  List.intercalate [43] (sortMods (sc.modifiers.getD [])) ++ [43] ++ lowerStr sc.key

/-- `keyBindings.has(key)`. -/
def hasShortcutKey (tbl : ShortcutTable) (k : Str) : Bool :=
  tbl.any (fun p => p.1 == k)

/-- `KeyboardManagerImpl.registerShortcut`: a duplicate canonical key is a
warned no-op, otherwise the binding is stored under the canonical key. -/
def registerShortcut (tbl : ShortcutTable) (commandId : Str)
    (sc : KeyboardShortcut) (whenResult : Option Bool) : ShortcutTable :=
  let k := generateShortcutKey sc
  if hasShortcutKey tbl k then tbl
  else tbl ++ [(k, ⟨sc, commandId, whenResult⟩)]

/-- The body of the `forEach` loop of
`KeyboardManagerImpl.registerCommandShortcuts`: register the command's
keybinding when it has one. -/
def shortcutStep (acc : ShortcutTable) (c : Command) : ShortcutTable :=
  match c.keybinding with
  | some sc => registerShortcut acc c.id sc none
  | none => acc

/-- `KeyboardManagerImpl.registerCommandShortcuts`: for every command of
`commandRegistry.getAll()` carrying a keybinding, register it. -/
def registerCommandShortcuts (cat : Catalog) (tbl : ShortcutTable) : ShortcutTable :=
  (getAll cat).foldl shortcutStep tbl

/-- The slice of a DOM `KeyboardEvent` read by `matchesShortcut`. -/
structure KeyEvent where
  key : Str
  ctrlKey : Bool
  shiftKey : Bool
  altKey : Bool
  metaKey : Bool
deriving DecidableEq, Repr

/-- `KeyboardManagerImpl.matchesShortcut`: case-insensitive base-key
equality plus exact equality of all four modifier flags. -/
def matchesShortcut (e : KeyEvent) (sc : KeyboardShortcut) : Bool :=
  let mods := sc.modifiers.getD []
  if !(lowerStr e.key == lowerStr sc.key) then false
  else
    (e.ctrlKey == mods.contains (chars "ctrl")) &&
    (e.shiftKey == mods.contains (chars "shift")) &&
    (e.altKey == mods.contains (chars "alt")) &&
    (e.metaKey == mods.contains (chars "meta"))

/-! ### Specification-level reformulation of the ranking algorithm.
These definitions follow the wording of the specification and are proved
equal to the embedded code. -/

/-- The greedy left-to-right subsequence walk described by the spec: the
count of query characters matched, in order, within the text. -/
def specGreedy : Str → Str → Nat
  | [], _ => 0
  | _ :: _, [] => 0
  | q :: qs, c :: ts => if q = c then 1 + specGreedy qs ts else specGreedy (q :: qs) ts

/-- The fuzzy score as described by the spec: the match succeeds only if
every query character is matched, in which case the raw score is the count
of matched characters divided by the title length. -/
def specFuzzy (q t : Str) : ℚ :=
  if specGreedy q t = q.length then (specGreedy q t : ℚ) / (t.length : ℚ) else 0

/-- The per-command score as described by the spec: 100 for an exact
lowercased-title match, else 80 for a prefix match, else 60 for a substring
match; additively +40/+30/+20 for description/keywords/category containment;
a command whose score is still 0 falls through to the fuzzy pass and gets
`floor(rawScore * 20)` only when the raw score exceeds one half. -/
def specScore (q : Str) (c : Command) : Nat :=
  let base :=
    (if lowerStr c.title = q then 100
     else if strStartsWith q (lowerStr c.title) then 80
     else if strIncludes q (lowerStr c.title) then 60 else 0)
    + (if strIncludes q (lowerStr (c.description.getD [])) then 40 else 0)
    + (if strIncludes q (lowerStr (joinSpace (c.keywords.getD []))) then 30 else 0)
    + (if strIncludes q (lowerStr c.category) then 20 else 0)
  if base = 0 then
    if 1 / 2 < specFuzzy q (lowerStr c.title) then
      (Int.floor (specFuzzy q (lowerStr c.title) * 20)).toNat
    else 0
  else base

/-- The ordering the spec demands of search results: descending score, ties
by descending priority (missing priority read as 0), remaining ties in
case-insensitive alphabetical title order. -/
def specOrder (q : Str) (a b : Command) : Prop :=
  specScore q b < specScore q a ∨
    (specScore q a = specScore q b ∧
      (prio b < prio a ∨
        (prio a = prio b ∧ lexCmp (lowerStr a.title) (lowerStr b.title) ≠ Ordering.gt)))


/-! ### Concrete commands used in the scenario claims -/

/-- The `{id: "file.save", title: "Save", priority: 95}` command of the
end-to-end scenario (category `file`; no description, keywords or
keybinding). -/
def fileSave : Command :=
  { id := chars "file.save", title := chars "Save", description := none,
    category := chars "file", keywords := none, keybinding := none,
    priority := some 95, hidden := false, canExecuteResult := none,
    execOk := true }

/-- The `{id: "file.saveAs", title: "Save As", priority: 70}` command of the
end-to-end scenario. -/
def fileSaveAs : Command :=
  { fileSave with
    id := chars "file.saveAs", title := chars "Save As", priority := some 70 }

/-- A command titled `"Save File"`, the boundary-condition fuzzy example. -/
def saveFileCmd : Command :=
  { fileSave with
    id := chars "file.saveFile", title := chars "Save File", priority := none }

/-- A command titled `"Axbcd"`: against the query `"abcd"` its base score is
0 and the fuzzy walk matches all four query characters, raw score 4/5. -/
def axbcdCmd : Command :=
  { fileSave with
    id := chars "demo.axbcd", title := chars "Axbcd",
    category := chars "zz", priority := none }

/-- A `ctrl+h` keyboard shortcut. -/
def ctrlH : KeyboardShortcut :=
  { key := chars "h", modifiers := some [chars "ctrl"], displayText := none }

/-- A hidden command carrying the `ctrl+h` keybinding. -/
def hiddenBound : Command :=
  { fileSave with
    id := chars "demo.hidden", title := chars "Hidden",
    hidden := true, keybinding := some ctrlH }

/-- A visible command carrying the `ctrl+h` keybinding. -/
def boundCmd : Command :=
  { fileSave with
    id := chars "demo.bound", title := chars "Bound",
    keybinding := some ctrlH }

/-- A command whose `execute` callback throws. -/
def failCmd : Command :=
  { fileSave with
    id := chars "demo.fail", title := chars "Fail", execOk := false }

/-- A command whose `canExecute` guard returns `false`. -/
def guardedCmd : Command :=
  { fileSave with
    id := chars "demo.guarded", title := chars "Guarded",
    canExecuteResult := some false }

/-- A chronological sequence of 150 distinct execution records. -/
def histSample : List ExecRecord :=
  (List.range 150).map (fun i => ⟨chars "c", i, ExecSource.programmatic, none⟩)

/-! ### String-level lemmas -/

theorem isWS_lowerChar (c : Nat) : isWS (lowerChar c) = isWS c := by
  unfold lowerChar isWS
  split
  · next h =>
    rw [Bool.eq_iff_iff]
    simp only [Bool.or_eq_true, beq_iff_eq]
    omega
  · rfl

theorem lowerChar_idem (c : Nat) : lowerChar (lowerChar c) = lowerChar c := by
  unfold lowerChar
  split
  · next h => rw [if_neg (by omega)]
  · rfl

theorem lowerStr_idem (s : Str) : lowerStr (lowerStr s) = lowerStr s := by
  unfold lowerStr
  rw [List.map_map]
  exact List.map_congr_left fun c _ => lowerChar_idem c

theorem dropWhile_lowerStr (s : Str) :
    (lowerStr s).dropWhile isWS = lowerStr (s.dropWhile isWS) := by
  unfold lowerStr
  rw [List.dropWhile_map]
  rw [show (isWS ∘ lowerChar) = isWS from funext isWS_lowerChar]

theorem reverse_lowerStr (s : Str) : (lowerStr s).reverse = lowerStr s.reverse := by
  unfold lowerStr
  exact (List.map_reverse lowerChar s).symm

theorem trimStr_lowerStr (s : Str) : trimStr (lowerStr s) = lowerStr (trimStr s) := by
  unfold trimStr
  rw [dropWhile_lowerStr, reverse_lowerStr, dropWhile_lowerStr, reverse_lowerStr]

theorem trimStr_eq_rdropWhile (s : Str) :
    trimStr s = List.rdropWhile isWS (s.dropWhile isWS) := by
  rfl

theorem dropWhile_rdropWhile_self {l : Str} (h : l.dropWhile isWS = l) :
    (List.rdropWhile isWS l).dropWhile isWS = List.rdropWhile isWS l := by
  rcases heq : List.rdropWhile isWS l with _ | ⟨x, xs⟩
  · rfl
  · rw [List.dropWhile_eq_self_iff]
    intro hl hpx
    have hpre : List.rdropWhile isWS l <+: l := List.rdropWhile_prefix isWS l
    rw [heq] at hpre
    have hlen : 0 < l.length := by
      have := hpre.length_le
      simp at this ⊢
      omega
    have hget : (x :: xs).get ⟨0, hl⟩ = l.get ⟨0, hlen⟩ := by
      have h0 : (0 : Nat) < (x :: xs).length := by simp
      have := hpre.getElem h0
      simpa using this
    rw [List.dropWhile_eq_self_iff] at h
    exact h hlen (hget ▸ hpx)

theorem trimStr_idem (s : Str) : trimStr (trimStr s) = trimStr s := by
  rw [trimStr_eq_rdropWhile s, trimStr_eq_rdropWhile]
  rw [dropWhile_rdropWhile_self (List.dropWhile_idempotent isWS s)]
  exact List.rdropWhile_idempotent isWS _

/-! ### Lexicographic-comparison lemmas, used for the sort relations -/

theorem lexCmp_nil_ne_gt : ∀ s : Str, lexCmp [] s ≠ Ordering.gt
  | [] => by simp [lexCmp]
  | _ :: _ => by simp [lexCmp]

theorem lexCmp_swap : ∀ a b : Str, lexCmp b a = (lexCmp a b).swap
  | [], [] => rfl
  | [], _ :: _ => rfl
  | _ :: _, [] => rfl
  | a :: as, b :: bs => by
    simp only [lexCmp]
    rcases Nat.lt_trichotomy a b with h | h | h
    · rw [if_neg (by omega), if_pos h, if_pos h]
      rfl
    · subst h
      rw [if_neg (by omega), if_neg (by omega), if_neg (by omega), if_neg (by omega)]
      exact lexCmp_swap as bs
    · rw [if_pos h, if_neg (by omega), if_pos h]
      rfl

theorem lexCmp_eq_iff : ∀ a b : Str, lexCmp a b = Ordering.eq ↔ a = b
  | [], [] => by simp [lexCmp]
  | [], _ :: _ => by simp [lexCmp]
  | _ :: _, [] => by simp [lexCmp]
  | a :: as, b :: bs => by
    simp only [lexCmp]
    rcases Nat.lt_trichotomy a b with h | h | h
    · rw [if_pos h]
      simp
      omega
    · subst h
      rw [if_neg (by omega), if_neg (by omega)]
      rw [lexCmp_eq_iff as bs]
      simp
    · rw [if_neg (by omega), if_pos h]
      simp
      omega

theorem lexCmp_le_trans :
    ∀ a b c : Str, lexCmp a b ≠ Ordering.gt → lexCmp b c ≠ Ordering.gt →
      lexCmp a c ≠ Ordering.gt
  | [], _, c, _, _ => lexCmp_nil_ne_gt c
  | _ :: _, [], _, hab, _ => absurd rfl hab
  | _ :: _, _ :: _, [], _, hbc => absurd rfl hbc
  | a :: as, b :: bs, c :: cs, hab, hbc => by
    simp only [lexCmp] at hab hbc ⊢
    rcases Nat.lt_trichotomy a b with h1 | h1 | h1
    · rcases Nat.lt_trichotomy b c with h2 | h2 | h2
      · rw [if_pos (by omega)]
        simp
      · subst h2
        rw [if_pos h1]
        simp
      · rw [if_neg (by omega), if_pos h2] at hbc
        exact absurd rfl hbc
    · subst h1
      rcases Nat.lt_trichotomy a c with h2 | h2 | h2
      · rw [if_pos h2]
        simp
      · subst h2
        rw [if_neg (by omega), if_neg (by omega)] at hab hbc ⊢
        exact lexCmp_le_trans as bs cs hab hbc
      · rw [if_neg (by omega), if_pos h2] at hbc
        exact absurd rfl hbc
    · rw [if_neg (by omega), if_pos h1] at hab
      exact absurd rfl hab

theorem lexCmp_le_total (a b : Str) :
    lexCmp a b ≠ Ordering.gt ∨ lexCmp b a ≠ Ordering.gt := by
  rcases h : lexCmp a b with _ | _ | _
  · left
    simp
  · left
    simp
  · right
    rw [lexCmp_swap, h]
    simp [Ordering.swap]

/-! ### The search ordering relation is total and transitive -/

theorem localeCompare_le_iff (a b : Str) :
    localeCompare a b ≤ 0 ↔ lexCmp (lowerStr a) (lowerStr b) ≠ Ordering.gt := by
  unfold localeCompare
  rcases h : lexCmp (lowerStr a) (lowerStr b) <;> simp

theorem searchRel_iff (a b : Scored) :
    searchRel a b ↔
      b.score < a.score ∨
        (a.score = b.score ∧
          (prio b.command < prio a.command ∨
            (prio a.command = prio b.command ∧
              lexCmp (lowerStr a.command.title) (lowerStr b.command.title) ≠
                Ordering.gt))) := by
  unfold searchRel searchCmp
  split
  · next h =>
    constructor
    · intro hle
      left
      omega
    · intro hor
      rcases hor with h1 | ⟨h1, _⟩
      · omega
      · exact absurd h1 h
  · next h =>
    have hs : a.score = b.score := by omega
    split
    · next h2 =>
      constructor
      · intro hle
        right
        exact ⟨hs, Or.inl (by omega)⟩
      · intro hor
        rcases hor with h1 | ⟨_, h2' | ⟨h2', _⟩⟩
        · omega
        · omega
        · exact absurd h2' h2
    · next h2 =>
      have hp : prio a.command = prio b.command := by omega
      rw [localeCompare_le_iff]
      constructor
      · intro hlex
        right
        exact ⟨hs, Or.inr ⟨hp, hlex⟩⟩
      · intro hor
        rcases hor with h1 | ⟨_, h2' | ⟨_, hlex⟩⟩
        · omega
        · omega
        · exact hlex

instance : IsTotal Scored searchRel :=
  ⟨fun a b => by
    rw [searchRel_iff, searchRel_iff]
    rcases Nat.lt_trichotomy a.score b.score with h | h | h
    · right
      left
      exact h
    · rcases Int.lt_trichotomy (prio a.command) (prio b.command) with h2 | h2 | h2
      · right
        right
        exact ⟨h.symm, Or.inl h2⟩
      · rcases lexCmp_le_total (lowerStr a.command.title) (lowerStr b.command.title) with
          h3 | h3
        · left
          right
          exact ⟨h, Or.inr ⟨h2, h3⟩⟩
        · right
          right
          exact ⟨h.symm, Or.inr ⟨h2.symm, h3⟩⟩
      · left
        right
        exact ⟨h, Or.inl h2⟩
    · left
      left
      exact h⟩

instance : IsTrans Scored searchRel :=
  ⟨fun a b c hab hbc => by
    rw [searchRel_iff] at hab hbc ⊢
    rcases hab with h1 | ⟨h1, h1'⟩
    · rcases hbc with h2 | ⟨h2, _⟩
      · left
        omega
      · left
        omega
    · rcases hbc with h2 | ⟨h2, h2'⟩
      · left
        omega
      · right
        refine ⟨by omega, ?_⟩
        rcases h1' with h3 | ⟨h3, h3'⟩
        · rcases h2' with h4 | ⟨h4, _⟩
          · left
            omega
          · left
            omega
        · rcases h2' with h4 | ⟨h4, h4'⟩
          · left
            omega
          · right
            exact ⟨by omega, lexCmp_le_trans _ _ _ h3' h4'⟩⟩

theorem specGreedy_nil_right : ∀ q : Str, specGreedy q [] = 0
  | [] => rfl
  | _ :: _ => rfl

theorem fuzzyGo_eq (query : Str) :
    ∀ (t : Str) (s qi : Nat), qi ≤ query.length →
      fuzzyGo query t s qi =
        (s + specGreedy (query.drop qi) t, qi + specGreedy (query.drop qi) t)
  | [], s, qi, _ => by simp [fuzzyGo, specGreedy_nil_right]
  | c :: t, s, qi, h => by
    by_cases hlt : qi < query.length
    · have hdrop : query.drop qi = query[qi] :: query.drop (qi + 1) :=
        List.drop_eq_getElem_cons hlt
      have hgetD : query.getD qi 0 = query[qi] := List.getD_eq_getElem query 0 hlt
      rw [fuzzyGo, if_pos hlt, hgetD]
      by_cases heq : query[qi] = c
      · rw [if_pos heq, fuzzyGo_eq query t (s + 1) (qi + 1) hlt]
        rw [hdrop, specGreedy]
        rw [if_pos heq]
        rw [Prod.mk.injEq]
        constructor <;> omega
      · rw [if_neg heq, fuzzyGo_eq query t s qi h]
        rw [hdrop, specGreedy]
        rw [if_neg heq, ← hdrop]
    · have hq : qi = query.length := by omega
      rw [fuzzyGo, if_neg hlt]
      rw [hq, List.drop_length]
      simp [specGreedy]

theorem calculateFuzzyScore_eq (q t : Str) : calculateFuzzyScore q t = specFuzzy q t := by
  unfold calculateFuzzyScore specFuzzy
  rw [fuzzyGo_eq q t 0 0 (Nat.zero_le _)]
  simp

theorem specScore_eq_scoreCommand (q : Str) (c : Command) :
    specScore q c = scoreCommand q c := by
  unfold specScore scoreCommand baseScore
  rw [calculateFuzzyScore_eq]

/-! ### Structure of `search` -/

theorem searchScan_eq (q : Str) :
    ∀ l : Catalog,
      searchScan q l =
        (l.filter (fun c => !c.hidden && decide (0 < scoreCommand q c))).map
          (fun c => ⟨c, scoreCommand q c⟩)
  | [] => rfl
  | c :: rest => by
    rw [searchScan, List.filter_cons]
    by_cases hh : c.hidden
    · rw [if_pos hh]
      have : (!c.hidden && decide (0 < scoreCommand q c)) = false := by
        rw [hh]
        rfl
      rw [this]
      simp only [Bool.false_eq_true, if_neg (by simp : ¬ (false = true))]
      exact searchScan_eq q rest
    · rw [if_neg hh]
      have hnh : (!c.hidden) = true := by
        simp [hh]
      by_cases hs : 0 < scoreCommand q c
      · have : (!c.hidden && decide (0 < scoreCommand q c)) = true := by
          rw [hnh, decide_eq_true hs]
          rfl
        rw [this, if_pos rfl]
        simp only [if_pos hs]
        rw [searchScan_eq q rest, List.map_cons]
      · have : (!c.hidden && decide (0 < scoreCommand q c)) = false := by
          rw [hnh, decide_eq_false hs]
          rfl
        rw [this]
        simp only [Bool.false_eq_true, if_neg (by simp : ¬ (false = true)), if_neg hs]
        exact searchScan_eq q rest

theorem search_eq_of_ne_empty (st : Catalog) (q : Str) (h : trimStr q ≠ []) :
    search st q =
      (List.insertionSort searchRel (searchScan (trimStr (lowerStr q)) st)).map
        Scored.command := by
  unfold search
  rw [if_neg (by simpa [List.isEmpty_iff] using h)]

theorem mem_search (st : Catalog) (q : Str) (c : Command) (h : trimStr q ≠ []) :
    c ∈ search st q ↔
      c ∈ st ∧ c.hidden = false ∧ 0 < scoreCommand (trimStr (lowerStr q)) c := by
  rw [search_eq_of_ne_empty st q h, List.mem_map]
  constructor
  · rintro ⟨x, hx, rfl⟩
    rw [(List.perm_insertionSort searchRel _).mem_iff, searchScan_eq, List.mem_map] at hx
    obtain ⟨a, ha, rfl⟩ := hx
    rw [List.mem_filter] at ha
    refine ⟨ha.1, ?_, ?_⟩
    · have := ha.2
      simp only [Bool.and_eq_true, Bool.not_eq_eq_eq_not, Bool.not_true,
        decide_eq_true_eq] at this
      simpa using this.1
    · have := ha.2
      simp only [Bool.and_eq_true, decide_eq_true_eq] at this
      exact this.2
  · rintro ⟨hmem, hhid, hpos⟩
    refine ⟨⟨c, scoreCommand (trimStr (lowerStr q)) c⟩, ?_, rfl⟩
    rw [(List.perm_insertionSort searchRel _).mem_iff, searchScan_eq, List.mem_map]
    refine ⟨c, ?_, rfl⟩
    rw [List.mem_filter]
    refine ⟨hmem, ?_⟩
    rw [hhid, decide_eq_true hpos]
    rfl

/-- Every scored entry produced by the scan carries the score of its
command. -/
theorem searchScan_score (q : Str) (l : Catalog) (x : Scored)
    (hx : x ∈ searchScan q l) : x.score = scoreCommand q x.command := by
  rw [searchScan_eq, List.mem_map] at hx
  obtain ⟨a, _, rfl⟩ := hx
  rfl

theorem search_pairwise (st : Catalog) (q : Str) (h : trimStr q ≠ []) :
    (search st q).Pairwise (specOrder (trimStr (lowerStr q))) := by
  rw [search_eq_of_ne_empty st q h, List.pairwise_map]
  have hsorted :
      List.Sorted searchRel
        (List.insertionSort searchRel (searchScan (trimStr (lowerStr q)) st)) :=
    List.sorted_insertionSort searchRel _
  refine List.Pairwise.imp_of_mem ?_ hsorted
  intro a b ha hb hab
  have ha' : a ∈ searchScan (trimStr (lowerStr q)) st :=
    ((List.perm_insertionSort searchRel _).mem_iff).mp ha
  have hb' : b ∈ searchScan (trimStr (lowerStr q)) st :=
    ((List.perm_insertionSort searchRel _).mem_iff).mp hb
  have hsa := searchScan_score (trimStr (lowerStr q)) st a ha'
  have hsb := searchScan_score (trimStr (lowerStr q)) st b hb'
  rw [searchRel_iff] at hab
  unfold specOrder
  rw [specScore_eq_scoreCommand, specScore_eq_scoreCommand, ← hsa, ← hsb]
  exact hab

theorem search_perm (st : Catalog) (q : Str) (h : trimStr q ≠ []) :
    (search st q).Perm
      (st.filter
        (fun c => !c.hidden && decide (0 < scoreCommand (trimStr (lowerStr q)) c))) := by
  rw [search_eq_of_ne_empty st q h]
  have hperm :=
    (List.perm_insertionSort searchRel (searchScan (trimStr (lowerStr q)) st)).map
      Scored.command
  refine hperm.trans ?_
  rw [searchScan_eq, List.map_map]
  have hcomp :
      (Scored.command ∘ fun c : Command =>
        (⟨c, scoreCommand (trimStr (lowerStr q)) c⟩ : Scored)) = id := rfl
  rw [hcomp, List.map_id]

/-! ### History ring buffer -/

theorem historyAdd_eq_take (h : List ExecRecord) (r : ExecRecord) :
    historyAdd h r = (r :: h).take maxEntries := by
  simp only [historyAdd]
  split
  · rfl
  · next hle =>
    rw [List.take_of_length_le (by omega)]

theorem historyAdd_head (h : List ExecRecord) (r : ExecRecord) :
    (historyAdd h r).head? = some r := by
  rw [historyAdd_eq_take]
  rfl

theorem take_append_take (u v : List ExecRecord) (n : Nat) :
    (u ++ v.take n).take n = (u ++ v).take n := by
  rw [List.take_append_eq_append_take, List.take_append_eq_append_take,
    List.take_take]
  have hmin : min (n - u.length) n = n - u.length := by omega
  rw [hmin]

theorem historyAddAll_eq :
    ∀ (rs h : List ExecRecord), h.length ≤ maxEntries →
      historyAddAll h rs = (rs.reverse ++ h).take maxEntries
  | [], h, hh => by
    unfold historyAddAll
    rw [List.foldl_nil, List.reverse_nil, List.nil_append,
      List.take_of_length_le hh]
  | r :: rs, h, hh => by
    unfold historyAddAll
    rw [List.foldl_cons]
    have hlen : (historyAdd h r).length ≤ maxEntries := by
      rw [historyAdd_eq_take]
      rw [List.length_take]
      omega
    have := historyAddAll_eq rs (historyAdd h r) hlen
    unfold historyAddAll at this
    rw [this, historyAdd_eq_take, take_append_take]
    rw [List.reverse_cons, List.append_assoc, List.singleton_append]

/-! ### `getAll` membership -/

theorem mem_getAll (st : Catalog) (c : Command) :
    c ∈ getAll st ↔ c ∈ st ∧ c.hidden = false := by
  unfold getAll
  rw [(List.perm_insertionSort prioRel _).mem_iff, List.mem_filter]
  simp

/-! ### Shortcut table -/

theorem hasShortcutKey_registerShortcut (tbl : ShortcutTable) (cid : Str)
    (sc : KeyboardShortcut) (w : Option Bool) :
    hasShortcutKey (registerShortcut tbl cid sc w) (generateShortcutKey sc) = true := by
  simp only [registerShortcut]
  split
  · next h => exact h
  · unfold hasShortcutKey
    rw [List.any_append]
    simp

theorem hasShortcutKey_mono (tbl : ShortcutTable) (cid : Str)
    (sc : KeyboardShortcut) (w : Option Bool) (k : Str)
    (h : hasShortcutKey tbl k = true) :
    hasShortcutKey (registerShortcut tbl cid sc w) k = true := by
  simp only [registerShortcut]
  split
  · exact h
  · unfold hasShortcutKey at h ⊢
    rw [List.any_append, h]
    rfl

theorem foldl_shortcutStep_mono :
    ∀ (l : List Command) (tbl : ShortcutTable) (k : Str),
      hasShortcutKey tbl k = true →
      hasShortcutKey (l.foldl shortcutStep tbl) k = true
  | [], _, _, h => h
  | c :: rest, tbl, k, h => by
    rw [List.foldl_cons]
    apply foldl_shortcutStep_mono rest
    unfold shortcutStep
    cases hkb : c.keybinding
    · exact h
    · exact hasShortcutKey_mono _ _ _ _ _ h

theorem foldl_shortcutStep_ensures :
    ∀ (l : List Command) (tbl : ShortcutTable) (c : Command)
      (sc : KeyboardShortcut), c ∈ l → c.keybinding = some sc →
      hasShortcutKey (l.foldl shortcutStep tbl) (generateShortcutKey sc) = true
  | [], _, _, _, h, _ => absurd h (List.not_mem_nil _)
  | x :: rest, tbl, c, sc, hmem, hkb => by
    rw [List.foldl_cons]
    rcases List.mem_cons.mp hmem with rfl | hmem2
    · apply foldl_shortcutStep_mono rest
      unfold shortcutStep
      rw [hkb]
      exact hasShortcutKey_registerShortcut _ _ _ _
    · exact foldl_shortcutStep_ensures rest _ c sc hmem2 hkb

/-! ### Fuzzy-pass arithmetic -/

theorem floor_pos_of_half_lt (x : ℚ) (hx : 1 / 2 < x) :
    0 < (Int.floor (x * 20)).toNat := by
  have h10 : (10 : ℚ) ≤ x * 20 := by linarith
  have hfl : (10 : ℤ) ≤ Int.floor (x * 20) := by
    rw [Int.le_floor]
    exact_mod_cast h10
  omega

theorem scoreCommand_of_base_zero (q : Str) (c : Command)
    (hb : baseScore q c = 0) :
    scoreCommand q c =
      if specGreedy q (lowerStr c.title) = q.length ∧
          1 / 2 <
            (specGreedy q (lowerStr c.title) : ℚ) / ((lowerStr c.title).length : ℚ)
      then
        (Int.floor
          ((specGreedy q (lowerStr c.title) : ℚ) /
              ((lowerStr c.title).length : ℚ) * 20)).toNat
      else 0 := by
  unfold scoreCommand
  rw [calculateFuzzyScore_eq, hb]
  unfold specFuzzy
  by_cases hcomp : specGreedy q (lowerStr c.title) = q.length
  · rw [if_pos rfl, if_pos hcomp]
    by_cases hhalf :
        1 / 2 <
          (specGreedy q (lowerStr c.title) : ℚ) / ((lowerStr c.title).length : ℚ)
    · rw [if_pos hhalf, if_pos ⟨hcomp, hhalf⟩]
    · rw [if_neg hhalf, if_neg (by tauto)]
  · rw [if_pos rfl, if_neg hcomp]
    rw [if_neg (by norm_num), if_neg (by tauto)]

/-! ### Claim theorems -/

/-- C1: for every query whose trimmed form is non-empty, `search` returns
exactly the non-hidden commands whose spec score (100 exact / 80 prefix /
60 contains on the lowercased title, additively +40 description, +30
space-joined keywords, +20 category containment, fuzzy fallback when the
base score is 0) is positive — commands ending at score 0 are excluded —
ordered by descending score, ties by descending priority (missing priority
read as 0), remaining ties alphabetically by title; the spec score agrees
with the score the code computes; and for every empty or whitespace-only
query `search` returns exactly `getAll()`. -/
theorem search_ranking_claim (st : Catalog) (q : Str) :
    (trimStr q = [] → search st q = getAll st) ∧
    (trimStr q ≠ [] →
      (∀ c, c ∈ search st q ↔
        c ∈ st ∧ c.hidden = false ∧ 0 < specScore (trimStr (lowerStr q)) c) ∧
      (search st q).Pairwise (specOrder (trimStr (lowerStr q))) ∧
      (∀ c, specScore (trimStr (lowerStr q)) c =
        scoreCommand (trimStr (lowerStr q)) c)) := by
  constructor
  · intro h
    unfold search
    rw [if_pos (by rw [h]; rfl)]
  · intro h
    refine ⟨?_, search_pairwise st q h, fun c => specScore_eq_scoreCommand _ c⟩
    intro c
    rw [mem_search st q c h, specScore_eq_scoreCommand]

/-- Witness for C1: the empty-query branch and the scored branch of
`search_ranking_claim` applied at concrete inputs. -/
theorem search_ranking_claim_witness :
    (search [fileSave] [] = getAll [fileSave]) ∧
    (fileSave ∈ search [fileSave, fileSaveAs] (chars "save") ↔
      fileSave ∈ [fileSave, fileSaveAs] ∧ fileSave.hidden = false ∧
        0 < specScore (trimStr (lowerStr (chars "save"))) fileSave) ∧
    (search [fileSave, fileSaveAs] (chars "save")).Pairwise
      (specOrder (trimStr (lowerStr (chars "save")))) :=
  ⟨(search_ranking_claim [fileSave] []).1 rfl,
   ((search_ranking_claim [fileSave, fileSaveAs] (chars "save")).2
      (by decide)).1 fileSave,
   ((search_ranking_claim [fileSave, fileSaveAs] (chars "save")).2
      (by decide)).2.1⟩

unseal Rat.inv Rat.mul in
/-- C2: for every non-hidden command whose base (exact/prefix/contains/
description/keywords/category) score is 0, `search` applies the fuzzy pass:
the greedy left-to-right subsequence walk must match every query character,
the raw score is the matched count divided by the title length, the command
scores `floor(rawScore * 20)` only when the raw score exceeds one half and
is otherwise excluded; in particular `search("svf")` against a command
titled `"Save File"` yields no match (raw score 3/9 is not above 0.5). -/
theorem fuzzy_fallback_claim :
    (∀ (st : Catalog) (q : Str) (c : Command), trimStr q ≠ [] → c ∈ st →
      c.hidden = false → baseScore (trimStr (lowerStr q)) c = 0 →
      ((c ∈ search st q ↔
          specGreedy (trimStr (lowerStr q)) (lowerStr c.title) =
              (trimStr (lowerStr q)).length ∧
            1 / 2 <
              (specGreedy (trimStr (lowerStr q)) (lowerStr c.title) : ℚ) /
                ((lowerStr c.title).length : ℚ)) ∧
        scoreCommand (trimStr (lowerStr q)) c =
          if specGreedy (trimStr (lowerStr q)) (lowerStr c.title) =
              (trimStr (lowerStr q)).length ∧
            1 / 2 <
              (specGreedy (trimStr (lowerStr q)) (lowerStr c.title) : ℚ) /
                ((lowerStr c.title).length : ℚ)
          then
            (Int.floor
              ((specGreedy (trimStr (lowerStr q)) (lowerStr c.title) : ℚ) /
                  ((lowerStr c.title).length : ℚ) * 20)).toNat
          else 0)) ∧
    (specGreedy (chars "svf") (lowerStr saveFileCmd.title) = 3 ∧
      (3 : ℚ) / 9 ≤ 1 / 2 ∧
      search [saveFileCmd] (chars "svf") = []) := by
  constructor
  · intro st q c hq hmem hhid hbase
    have hscore := scoreCommand_of_base_zero (trimStr (lowerStr q)) c hbase
    refine ⟨?_, hscore⟩
    rw [mem_search st q c hq, hscore]
    constructor
    · rintro ⟨_, _, hpos⟩
      by_contra hcond
      rw [if_neg hcond] at hpos
      exact absurd hpos (by omega)
    · intro hcond
      refine ⟨hmem, hhid, ?_⟩
      rw [if_pos hcond]
      exact floor_pos_of_half_lt _ hcond.2
  · refine ⟨by decide, by norm_num, by decide⟩

unseal Rat.inv Rat.mul in
/-- Witness for C2: the command titled `"Axbcd"` with query `"abcd"` has
base score 0, a complete greedy match of raw score 4/5 > 1/2, and is
therefore returned by `search`. -/
theorem fuzzy_fallback_claim_witness :
    axbcdCmd ∈ search [axbcdCmd] (chars "abcd") :=
  ((fuzzy_fallback_claim.1 [axbcdCmd] (chars "abcd") axbcdCmd (by decide)
      (by decide) (by decide) (by decide)).1).mpr (by decide)

/-- C3: for every registered command whose `execute` callback throws or
rejects (and whose guard does not already reject), `executeCommand` rethrows
the error to its direct caller, the registry state — including the history —
is unchanged, and no execution observer is notified. -/
theorem execute_failure_claim (st : RegState) (cid : Str) (args : Option Nat)
    (source : ExecSource) (now : Nat) (c : Command)
    (hfind : findCommand st.commands cid = some c)
    (hguard : c.canExecuteResult ≠ some false)
    (hfail : c.execOk = false) :
    executeCommand st cid args source now = ⟨st, true, false⟩ := by
  unfold executeCommand
  rw [hfind]
  dsimp only
  rw [if_neg hguard, hfail]
  rfl

/-- Witness for C3: executing the throwing command `demo.fail`. -/
theorem execute_failure_claim_witness :
    executeCommand ⟨[failCmd], []⟩ (chars "demo.fail") none
        ExecSource.programmatic 5 =
      ⟨⟨[failCmd], []⟩, true, false⟩ :=
  execute_failure_claim ⟨[failCmd], []⟩ (chars "demo.fail") none
    ExecSource.programmatic 5 failCmd (by decide) (by decide) (by decide)

/-- C4 counterexample: in the two-command scenario the normalized query
`"save"` equals the lowercased title of `"Save"`, so that command scores 100
through the exact-match branch — not 80 through starts-with as the claim
asserts of both commands. -/
theorem save_scenario_counterexample :
    lowerStr fileSave.title = chars "save" ∧
    scoreCommand (chars "save") fileSave = 100 ∧
    scoreCommand (chars "save") fileSave ≠ 80 := by
  decide

/-- C4 amended: after registering exactly `fileSave` (priority 95) and
`fileSaveAs` (priority 70), `search("save")` returns `["Save", "Save As"]`
in that order, with `"Save"` matching the exact-title branch at score 100
and `"Save As"` matching starts-with at score 80, the order following from
descending score (no priority tie-break is needed). -/
theorem save_scenario_claim :
    search (register (register [] fileSave) fileSaveAs) (chars "save") =
      [fileSave, fileSaveAs] ∧
    scoreCommand (chars "save") fileSave = 100 ∧
    lowerStr fileSave.title = chars "save" ∧
    scoreCommand (chars "save") fileSaveAs = 80 ∧
    strStartsWith (chars "save") (lowerStr fileSaveAs.title) = true ∧
    lowerStr fileSaveAs.title ≠ chars "save" := by
  decide

/-- C5: a `register` call whose command id is already present, and a
`registerShortcut` call whose canonical key (sorted modifiers, lowercased
base key) is already bound, are both no-ops: the whole state is returned
unchanged, so the original registration wins. -/
theorem duplicate_registration_claim :
    (∀ (st : Catalog) (c : Command), hasCommand st c.id = true →
      register st c = st) ∧
    (∀ (tbl : ShortcutTable) (cid : Str) (sc : KeyboardShortcut)
      (w : Option Bool), hasShortcutKey tbl (generateShortcutKey sc) = true →
      registerShortcut tbl cid sc w = tbl) := by
  constructor
  · intro st c h
    unfold register
    rw [if_pos h]
  · intro tbl cid sc w h
    simp only [registerShortcut]
    rw [if_pos h]

/-- Witness for C5: re-registering `fileSave` and re-binding `ctrl+h`. -/
theorem duplicate_registration_claim_witness :
    register [fileSave] fileSave = [fileSave] ∧
    registerShortcut (registerShortcut [] (chars "demo.bound") ctrlH none)
        (chars "other.cmd") ctrlH none =
      registerShortcut [] (chars "demo.bound") ctrlH none :=
  ⟨duplicate_registration_claim.1 [fileSave] fileSave (by decide),
   duplicate_registration_claim.2
     (registerShortcut [] (chars "demo.bound") ctrlH none)
     (chars "other.cmd") ctrlH none (by decide)⟩

/-- C6: a key event matches a binding exactly when the base keys are equal
case-insensitively and each of the four modifier flags of the event equals
the binding's required modifier set — extra or missing modifiers both miss;
in particular an event with `ctrlKey = true` never matches a binding
requiring no modifiers, even when the base key matches. -/
theorem shortcut_match_claim (e : KeyEvent) (sc : KeyboardShortcut) :
    (matchesShortcut e sc = true ↔
      (lowerStr e.key = lowerStr sc.key ∧
        e.ctrlKey = (sc.modifiers.getD []).contains (chars "ctrl") ∧
        e.shiftKey = (sc.modifiers.getD []).contains (chars "shift") ∧
        e.altKey = (sc.modifiers.getD []).contains (chars "alt") ∧
        e.metaKey = (sc.modifiers.getD []).contains (chars "meta"))) ∧
    (e.ctrlKey = true → sc.modifiers.getD [] = [] →
      matchesShortcut e sc = false) := by
  have hiff : matchesShortcut e sc = true ↔
      (lowerStr e.key = lowerStr sc.key ∧
        e.ctrlKey = (sc.modifiers.getD []).contains (chars "ctrl") ∧
        e.shiftKey = (sc.modifiers.getD []).contains (chars "shift") ∧
        e.altKey = (sc.modifiers.getD []).contains (chars "alt") ∧
        e.metaKey = (sc.modifiers.getD []).contains (chars "meta")) := by
    simp only [matchesShortcut]
    by_cases hk : lowerStr e.key = lowerStr sc.key
    · rw [if_neg (by simp [hk])]
      simp only [Bool.and_eq_true, beq_iff_eq]
      tauto
    · rw [if_pos (by simp [hk])]
      simp [hk]
  refine ⟨hiff, ?_⟩
  intro hc hmods
  rcases hm : matchesShortcut e sc with _ | _
  · rfl
  · have := hiff.mp hm
    rw [hmods] at this
    rw [hc] at this
    simp at this

/-- Witness for C6: a `ctrl+p` key event does not match a bare `p` binding
even though the base key matches. -/
theorem shortcut_match_claim_witness :
    matchesShortcut ⟨chars "p", true, false, false, false⟩
      ⟨chars "p", none, none⟩ = false :=
  (shortcut_match_claim ⟨chars "p", true, false, false, false⟩
    ⟨chars "p", none, none⟩).2 rfl rfl

/-- C7: the execution history is a newest-first ring buffer capped at 100
entries: `add` prepends the new record at the front, the entry count never
exceeds 100 after any sequence of adds from the empty buffer, and
`getRecent n` (for `n` up to the cap) returns the `n` most recent records,
newest first. -/
theorem history_ring_buffer_claim :
    maxEntries = 100 ∧
    (∀ (h : List ExecRecord) (r : ExecRecord), (historyAdd h r).head? = some r) ∧
    (∀ rs : List ExecRecord, (historyAddAll [] rs).length ≤ maxEntries) ∧
    (∀ (rs : List ExecRecord) (n : Nat), n ≤ maxEntries →
      getRecent (historyAddAll [] rs) n = rs.reverse.take n) := by
  refine ⟨rfl, historyAdd_head, ?_, ?_⟩
  · intro rs
    rw [historyAddAll_eq rs [] (by simp)]
    rw [List.append_nil, List.length_take]
    omega
  · intro rs n hn
    rw [historyAddAll_eq rs [] (by simp)]
    unfold getRecent
    rw [List.append_nil, List.take_take]
    have hmin : min n maxEntries = n := by omega
    rw [hmin]

/-- Witness for C7: adding 150 records to the empty history leaves at most
100 entries, and `getRecent 5` returns the 5 most recent, newest first. -/
theorem history_ring_buffer_claim_witness :
    (historyAddAll [] histSample).length ≤ maxEntries ∧
    getRecent (historyAddAll [] histSample) 5 = histSample.reverse.take 5 :=
  ⟨history_ring_buffer_claim.2.2.1 histSample,
   history_ring_buffer_claim.2.2.2 histSample 5 (by decide)⟩

/-- C8: `executeCommand` on an unknown id, or on a command whose
`canExecute` guard returns `false`, returns normally (no exception),
appends nothing to history, and notifies no observer. -/
theorem execute_skip_claim (st : RegState) (cid : Str) (args : Option Nat)
    (source : ExecSource) (now : Nat) :
    (findCommand st.commands cid = none →
      executeCommand st cid args source now = ⟨st, false, false⟩) ∧
    (∀ c, findCommand st.commands cid = some c →
      c.canExecuteResult = some false →
      executeCommand st cid args source now = ⟨st, false, false⟩) := by
  constructor
  · intro h
    unfold executeCommand
    rw [h]
  · intro c hc hg
    unfold executeCommand
    rw [hc]
    dsimp only
    rw [if_pos hg]

/-- Witness for C8: an unknown command id, and the guarded command
`demo.guarded` whose guard returns `false`. -/
theorem execute_skip_claim_witness :
    executeCommand ⟨[], []⟩ (chars "nope") none ExecSource.palette 0 =
      ⟨⟨[], []⟩, false, false⟩ ∧
    executeCommand ⟨[guardedCmd], []⟩ (chars "demo.guarded") none
        ExecSource.menu 1 =
      ⟨⟨[guardedCmd], []⟩, false, false⟩ :=
  ⟨(execute_skip_claim ⟨[], []⟩ (chars "nope") none ExecSource.palette 0).1
     (by decide),
   (execute_skip_claim ⟨[guardedCmd], []⟩ (chars "demo.guarded") none
     ExecSource.menu 1).2 guardedCmd (by decide) (by decide)⟩

/-- C9 counterexample: `registerCommandShortcuts` iterates `getAll()`, which
filters out hidden commands, so a hidden descriptor carrying a keybinding
does not get its shortcut registered — against the claim's "including
hidden descriptors". -/
theorem register_from_catalog_counterexample :
    hiddenBound.hidden = true ∧
    hiddenBound.keybinding = some ctrlH ∧
    registerCommandShortcuts [hiddenBound] [] = [] ∧
    hasShortcutKey (registerCommandShortcuts [hiddenBound] [])
      (generateShortcutKey ctrlH) = false := by
  decide

/-- C9 amended: after `registerCommandShortcuts`, every NON-hidden
registered descriptor carrying a keybinding has its canonical combination
present in the dispatcher table (subject to the normal duplicate-combination
rejection, which still leaves the key bound). -/
theorem register_from_catalog_claim (cat : Catalog) (tbl : ShortcutTable)
    (c : Command) (sc : KeyboardShortcut) (hc : c ∈ cat)
    (hh : c.hidden = false) (hk : c.keybinding = some sc) :
    hasShortcutKey (registerCommandShortcuts cat tbl)
      (generateShortcutKey sc) = true := by
  unfold registerCommandShortcuts
  exact foldl_shortcutStep_ensures (getAll cat) tbl c sc
    ((mem_getAll cat c).mpr ⟨hc, hh⟩) hk

/-- Witness for C9: the visible command `demo.bound` with keybinding
`ctrl+h` ends up bound. -/
theorem register_from_catalog_claim_witness :
    hasShortcutKey (registerCommandShortcuts [boundCmd] [])
      (generateShortcutKey ctrlH) = true :=
  register_from_catalog_claim [boundCmd] [] boundCmd ctrlH (by decide)
    (by decide) (by decide)

/-- C10: search results depend only on the trimmed, lowercased form of the
query — for every query whose trimmed form is non-empty, `search q` returns
exactly the same list, in the same order, as `search (lowerStr (trimStr q))`. -/
theorem search_normalization_claim (st : Catalog) (q : Str)
    (h : trimStr q ≠ []) :
    search st q = search st (lowerStr (trimStr q)) := by
  have hkey : trimStr (lowerStr (lowerStr (trimStr q))) = trimStr (lowerStr q) := by
    rw [lowerStr_idem, trimStr_lowerStr, trimStr_idem, ← trimStr_lowerStr]
  have hne : trimStr (lowerStr (trimStr q)) ≠ [] := by
    rw [trimStr_lowerStr]
    intro hc
    unfold lowerStr at hc
    rw [List.map_eq_nil_iff, trimStr_idem] at hc
    exact h hc
  unfold search
  rw [if_neg (by simpa [List.isEmpty_iff] using h),
    if_neg (by simpa [List.isEmpty_iff] using hne), hkey]

/-- Witness for C10: the query `"  SAVE "` gives the same result as its
normalized form `"save"`. -/
theorem search_normalization_claim_witness :
    trimStr (chars "  SAVE ") ≠ [] ∧
    search [fileSave, fileSaveAs] (chars "  SAVE ") =
      search [fileSave, fileSaveAs] (lowerStr (trimStr (chars "  SAVE "))) :=
  ⟨by decide, search_normalization_claim [fileSave, fileSaveAs]
    (chars "  SAVE ") (by decide)⟩
